import Mathlib

/-!
# A model of `src/cowslice.rs` (`CowSlice<T>`)

`CowSlice<T>` is a copy-on-write, windowed view over a reference-counted
growable buffer (`ecow::EcoVec<T>`):

```rust
pub struct CowSlice<T> {
    data: EcoVec<T>,
    start: usize,
    end: usize,
}
```

The shallow embedding makes the sharing explicit: a `Heap α` holds the live
buffers, each paired with its share count (`EcoVec`'s reference count), and a
`CowSlice` holds a buffer id plus the `start`/`end` window offsets.  `EcoVec`
itself is an external crate; its operations used by the source
(`len`, `clone` = share-count increment, `is_unique`, `make_mut`,
`From<&[T]>`, `from(Vec)`) are modelled at the level the spec describes them:
contents plus a share count, with `is_unique` true exactly when the share
count is 1.  Dropping a handle (the `*self = ...` reassignments in the
source) decrements the count.
-/

/-- The store of live shared buffers: each entry is (contents, share count). -/
structure Heap (α : Type) where
  bufs : List (List α × Nat)
deriving DecidableEq

/-- `CowSlice<T>`: a buffer id (the `data: EcoVec<T>` handle) and the window
`[start, end)`.  The field `end` is called `end_` because `end` is a Lean
keyword. -/
structure CowSlice where
  bid : Nat
  start : Nat
  end_ : Nat
deriving DecidableEq

namespace Heap

/-- Contents of buffer `b` (empty for a dangling id). -/
def buf (h : Heap α) (b : Nat) : List α := (h.bufs.getD b ([], 0)).1

/-- Share count of buffer `b` (0 for a dangling id). -/
def rc (h : Heap α) (b : Nat) : Nat := (h.bufs.getD b ([], 0)).2

/-- `EcoVec::is_unique`: exactly one owner. -/
def isUnique (h : Heap α) (b : Nat) : Bool := h.rc b == 1

/-- Allocate a fresh buffer with contents `l` and share count 1; returns the
new heap and the fresh buffer id. -/
def alloc (h : Heap α) (l : List α) : Heap α × Nat :=
  (⟨h.bufs ++ [(l, 1)]⟩, h.bufs.length)

/-- Overwrite the contents of buffer `b`, keeping its share count. -/
def setBuf (h : Heap α) (b : Nat) (l : List α) : Heap α :=
  ⟨h.bufs.set b (l, h.rc b)⟩

/-- `EcoVec::clone`: increment the share count of buffer `b`. -/
def rcIncr (h : Heap α) (b : Nat) : Heap α :=
  ⟨h.bufs.set b (h.buf b, h.rc b + 1)⟩

/-- Dropping one handle of buffer `b`: decrement the share count. -/
def rcDecr (h : Heap α) (b : Nat) : Heap α :=
  ⟨h.bufs.set b (h.buf b, h.rc b - 1)⟩

end Heap

/-- The visible sequence of a view: `&self.data[self.start..self.end]`
(`impl Deref`).  Every read path of the source (indexing, `iter`, `Borrow`,
`AsRef`, comparisons, hashing) goes through this slice. -/
def visible (h : Heap α) (s : CowSlice) : List α :=
  ((h.buf s.bid).drop s.start).take (s.end_ - s.start)

/-- By-value iteration (`impl IntoIterator for CowSlice`):
`self.data.into_iter().skip(self.start).take(self.end - self.start)`. -/
def intoIter (h : Heap α) (s : CowSlice) : List α :=
  ((h.buf s.bid).drop s.start).take (s.end_ - s.start)

/-- Construction from an owned vector / array / borrowed slice
(`From<Vec<T>>`, `From<[T; N]>`, `From<&[T]>`): a fresh buffer holding the
input, windowed in full (`start = 0`, `end = len`). -/
def fromList (h : Heap α) (l : List α) : Heap α × CowSlice :=
  ((h.alloc l).1, ⟨(h.alloc l).2, 0, l.length⟩)

/-- `impl Clone for CowSlice`: clone the data handle (share-count increment)
and copy the offsets. -/
def clone (h : Heap α) (s : CowSlice) : Heap α × CowSlice :=
  (h.rcIncr s.bid, s)

/-- A `std::ops::Bound<&usize>` endpoint of a `RangeBounds<usize>` argument. -/
inductive RBound
  | included (n : Nat)
  | excluded (n : Nat)
  | unbounded
deriving DecidableEq

/-- The absolute start offset `slice` computes from `range.start_bound()`. -/
def resolveStart (s : CowSlice) : RBound → Nat
  | .included n => s.start + n
  | .excluded n => s.start + n + 1
  | .unbounded => s.start

/-- The absolute end offset `slice` computes from `range.end_bound()`. -/
def resolveEnd (s : CowSlice) : RBound → Nat
  | .included n => s.start + n + 1
  | .excluded n => s.start + n
  | .unbounded => s.end_

/-- `CowSlice::slice`: resolve the range bounds to absolute offsets, assert
`start <= end` and `end <= self.end` (a panic, modelled as `none`), and on
success return a view over the same buffer (`self.data.clone()` increments
the share count). -/
def sliceCow (h : Heap α) (s : CowSlice) (sb eb : RBound) : Option (Heap α × CowSlice) :=
  if resolveStart s sb ≤ resolveEnd s eb ∧ resolveEnd s eb ≤ s.end_ then
    some (h.rcIncr s.bid, ⟨s.bid, resolveStart s sb, resolveEnd s eb⟩)
  else
    none

/-- `CowSlice::truncate`: set `end := start + len`, asserting
`end <= data.len()` (a panic, modelled as `none`). -/
def truncate (h : Heap α) (s : CowSlice) (len : Nat) : Option CowSlice :=
  if s.start + len ≤ (h.buf s.bid).length then
    some ⟨s.bid, s.start, s.start + len⟩
  else
    none

/-- `CowSlice::modify`: if the buffer is unique and the window spans it
(`start == 0 && end == data.len()`), apply `f` to the buffer in place and
resynchronize `end` to the new length; otherwise copy the visible region into
a fresh `EcoVec`, apply `f` there, and replace the view wholesale
(`*self = vec.into()` drops the old handle, decrementing its share count). -/
def modifyCow (h : Heap α) (s : CowSlice) (f : List α → List α) : Heap α × CowSlice :=
  if h.isUnique s.bid = true ∧ s.start = 0 ∧ s.end_ = (h.buf s.bid).length then
    (h.setBuf s.bid (f (h.buf s.bid)), ⟨s.bid, s.start, (f (h.buf s.bid)).length⟩)
  else
    (((h.rcDecr s.bid).alloc (f (visible h s))).1,
      ⟨((h.rcDecr s.bid).alloc (f (visible h s))).2, 0, (f (visible h s)).length⟩)

/-- `impl Extend for CowSlice`: `self.modify(|vec| vec.extend(iter))`. -/
def extendCow (h : Heap α) (s : CowSlice) (xs : List α) : Heap α × CowSlice :=
  modifyCow h s (fun v => v ++ xs)

/-- The copy-on-write step of `impl DerefMut`: if the buffer is not unique,
replace the view by a fresh full-window copy of the visible region
(`*self = self.to_vec().into()`, which drops the old handle). -/
def derefMutPrep (h : Heap α) (s : CowSlice) : Heap α × CowSlice :=
  if h.isUnique s.bid = true then
    (h, s)
  else
    (((h.rcDecr s.bid).alloc (visible h s)).1,
      ⟨((h.rcDecr s.bid).alloc (visible h s)).2, 0, (visible h s).length⟩)

/-- The mutable slice `deref_mut` hands out: `self.data.make_mut()`, i.e. the
WHOLE buffer after the copy-on-write step — not restricted to the window. -/
def derefMutSlice (h : Heap α) (s : CowSlice) : List α :=
  ((derefMutPrep h s).1).buf ((derefMutPrep h s).2).bid

/-- An element write through `DerefMut` (`slice[i] = x`): run the
copy-on-write step, then write index `i` of the slice `make_mut` returned
(bounds-checked against the whole buffer, a panic modelled as `none`). -/
def writeAt (h : Heap α) (s : CowSlice) (i : Nat) (x : α) : Option (Heap α × CowSlice) :=
  if i < (((derefMutPrep h s).1).buf ((derefMutPrep h s).2).bid).length then
    some ((((derefMutPrep h s).1).setBuf ((derefMutPrep h s).2).bid
            ((((derefMutPrep h s).1).buf ((derefMutPrep h s).2).bid).set i x)),
          (derefMutPrep h s).2)
  else
    none

/-- Invariant I1 of the spec: `start <= end <= buffer.length()`. -/
def I1 (h : Heap α) (s : CowSlice) : Prop :=
  s.start ≤ s.end_ ∧ s.end_ ≤ (h.buf s.bid).length

instance (h : Heap α) (s : CowSlice) : Decidable (I1 h s) := by
  unfold I1; infer_instance

/-- Rust's lexicographic slice comparison (`<[T] as Ord>::cmp`), to which
`impl Ord for CowSlice` delegates on the two visible slices. -/
def lexCmp (cmp : α → α → Ordering) : List α → List α → Ordering
  | [], [] => .eq
  | [], _ :: _ => .lt
  | _ :: _, [] => .gt
  | x :: xs, y :: ys =>
    match cmp x y with
    | .eq => lexCmp cmp xs ys
    | o => o

/-- `impl PartialEq for CowSlice`: `**self == **other`, element-wise equality
of the two visible slices (the two views may live in different heaps). -/
def eqCow [BEq α] (h₁ : Heap α) (a : CowSlice) (h₂ : Heap α) (b : CowSlice) : Bool :=
  visible h₁ a == visible h₂ b

/-- `impl Ord for CowSlice`: `(**self).cmp(&**other)` — lexicographic
comparison of the two visible slices. -/
def cmpCow (cmp : α → α → Ordering) (h₁ : Heap α) (a : CowSlice)
    (h₂ : Heap α) (b : CowSlice) : Ordering :=
  lexCmp cmp (visible h₁ a) (visible h₂ b)

/-- `impl Hash for CowSlice`: `(**self).hash(state)` — the slice `Hash`
instance feeds the length and then each visible element to the hasher.  The
hasher is modelled abstractly as a state `Nat` with transition functions
`wl` (write length) and `we` (write element). -/
def hashCow (wl : Nat → Nat → Nat) (we : Nat → α → Nat)
    (h : Heap α) (s : CowSlice) (st : Nat) : Nat :=
  (visible h s).foldl we (wl st (visible h s).length)

-- Sanity checks mirroring the source's two #[test] functions.
example :
    (fromList (⟨[]⟩ : Heap Nat) [1, 2, 3]).1 = ⟨[([1, 2, 3], 1)]⟩ ∧
    (fromList (⟨[]⟩ : Heap Nat) [1, 2, 3]).2 = ⟨0, 0, 3⟩ := by decide

-- `cow_slice_modify`: push 4 onto the full unique view, in place.
example :
    modifyCow (⟨[([1, 2, 3], 1)]⟩ : Heap Nat) ⟨0, 0, 3⟩ (fun v => v ++ [4]) =
      (⟨[([1, 2, 3, 4], 1)]⟩, ⟨0, 0, 4⟩) := by decide

-- `cow_slice_modify`: `sub = slice(1..=2)` then `sub.modify(push 5)` copies,
-- leaving the parent untouched.
example :
    sliceCow (⟨[([1, 2, 3, 4], 1)]⟩ : Heap Nat) ⟨0, 0, 4⟩ (.included 1) (.included 2) =
      some (⟨[([1, 2, 3, 4], 2)]⟩, ⟨0, 1, 3⟩) := by decide

example :
    modifyCow (⟨[([1, 2, 3, 4], 2)]⟩ : Heap Nat) ⟨0, 1, 3⟩ (fun v => v ++ [5]) =
      (⟨[([1, 2, 3, 4], 1), ([2, 3, 5], 1)]⟩, ⟨1, 0, 3⟩) ∧
    visible (⟨[([1, 2, 3, 4], 1), ([2, 3, 5], 1)]⟩ : Heap Nat) ⟨0, 0, 4⟩ = [1, 2, 3, 4] ∧
    visible (⟨[([1, 2, 3, 4], 1), ([2, 3, 5], 1)]⟩ : Heap Nat) ⟨1, 0, 3⟩ = [2, 3, 5] := by
  decide

-- `cow_slice_deref_mut`: `slice[1] = 7` on a unique full view writes in place.
example :
    writeAt (⟨[([1, 2, 3, 4], 1)]⟩ : Heap Nat) ⟨0, 0, 4⟩ 1 7 =
      some (⟨[([1, 7, 3, 4], 1)]⟩, ⟨0, 0, 4⟩) := by decide

-- `cow_slice_deref_mut`: `sub[1] = 5` on a shared sub-view copies first.
example :
    writeAt (⟨[([1, 7, 3, 4], 2)]⟩ : Heap Nat) ⟨0, 1, 3⟩ 1 5 =
      some (⟨[([1, 7, 3, 4], 1), ([7, 5], 1)]⟩, ⟨1, 0, 2⟩) := by decide

/-! ## Heap bookkeeping lemmas -/

theorem length_setBuf (h : Heap α) (b : Nat) (l : List α) :
    (h.setBuf b l).bufs.length = h.bufs.length := List.length_set ..

theorem length_rcIncr (h : Heap α) (b : Nat) :
    (h.rcIncr b).bufs.length = h.bufs.length := List.length_set ..

theorem length_rcDecr (h : Heap α) (b : Nat) :
    (h.rcDecr b).bufs.length = h.bufs.length := List.length_set ..

theorem length_alloc (h : Heap α) (l : List α) :
    ((h.alloc l).1).bufs.length = h.bufs.length + 1 := by
  simp [Heap.alloc]

theorem lt_of_rc_ne_zero (h : Heap α) (b : Nat) (hb : h.rc b ≠ 0) :
    b < h.bufs.length := by
  by_contra hlt
  push_neg at hlt
  exact hb (by unfold Heap.rc; rw [List.getD_eq_default _ _ hlt])

theorem lt_of_isUnique (h : Heap α) (b : Nat) (hu : h.isUnique b = true) :
    b < h.bufs.length := by
  apply lt_of_rc_ne_zero
  simp only [Heap.isUnique, beq_iff_eq] at hu
  omega

theorem not_isUnique_of_two_le (h : Heap α) (b : Nat) (h2 : 2 ≤ h.rc b) :
    h.isUnique b = false := by
  simp only [Heap.isUnique, beq_eq_false_iff_ne, ne_eq]
  omega

theorem buf_setBuf_self (h : Heap α) (b : Nat) (l : List α) (hb : b < h.bufs.length) :
    (h.setBuf b l).buf b = l := by
  simp [Heap.setBuf, Heap.buf, List.getD_eq_getElem?_getD, List.getElem?_set_eq_of_lt _ hb]

theorem buf_setBuf_of_ne (h : Heap α) (b : Nat) (l : List α) (b' : Nat) (hne : b ≠ b') :
    (h.setBuf b l).buf b' = h.buf b' := by
  simp [Heap.setBuf, Heap.buf, List.getD_eq_getElem?_getD, List.getElem?_set_ne hne]

theorem buf_rcIncr (h : Heap α) (b b' : Nat) : (h.rcIncr b).buf b' = h.buf b' := by
  rcases eq_or_ne b b' with rfl | hne
  · by_cases hb : b < h.bufs.length
    · simp [Heap.rcIncr, Heap.buf, List.getD_eq_getElem?_getD, List.getElem?_set_eq_of_lt _ hb]
    · push_neg at hb
      simp [Heap.rcIncr, Heap.buf, List.set_eq_of_length_le hb]
  · simp [Heap.rcIncr, Heap.buf, List.getD_eq_getElem?_getD, List.getElem?_set_ne hne]

theorem buf_rcDecr (h : Heap α) (b b' : Nat) : (h.rcDecr b).buf b' = h.buf b' := by
  rcases eq_or_ne b b' with rfl | hne
  · by_cases hb : b < h.bufs.length
    · simp [Heap.rcDecr, Heap.buf, List.getD_eq_getElem?_getD, List.getElem?_set_eq_of_lt _ hb]
    · push_neg at hb
      simp [Heap.rcDecr, Heap.buf, List.set_eq_of_length_le hb]
  · simp [Heap.rcDecr, Heap.buf, List.getD_eq_getElem?_getD, List.getElem?_set_ne hne]

theorem buf_alloc_lt (h : Heap α) (l : List α) (b : Nat) (hb : b < h.bufs.length) :
    ((h.alloc l).1).buf b = h.buf b := by
  simp [Heap.alloc, Heap.buf, List.getD_eq_getElem?_getD, List.getElem?_append_left hb]

theorem buf_alloc_fresh (h : Heap α) (l : List α) :
    ((h.alloc l).1).buf h.bufs.length = l := by
  simp [Heap.alloc, Heap.buf, List.getD_eq_getElem?_getD, List.getElem?_concat_length]

theorem visible_eq_of_buf_eq (h h' : Heap α) (s : CowSlice)
    (hb : h'.buf s.bid = h.buf s.bid) : visible h' s = visible h s := by
  simp [visible, hb]

theorem start_le_resolveStart (s : CowSlice) (sb : RBound) :
    s.start ≤ resolveStart s sb := by
  cases sb <;> (simp only [resolveStart]; omega)

theorem buf_alloc_snd (h : Heap α) (l : List α) :
    ((h.alloc l).1).buf ((h.alloc l).2) = l := buf_alloc_fresh h l

/-! ## Claim theorems -/

/-- C8: constructing a `CowSlice` from an owned sequence (`From<Vec<T>>`,
`From<&[T]>`, `From<[T; N]>` all build the same view) yields a full window
over a fresh buffer (`start = 0`, `end = length`, fresh buffer id), and
reading it back — as a slice (`Deref`) or by value (`IntoIterator`) —
reproduces the input exactly. -/
theorem fromList_roundtrip (h : Heap α) (l : List α) :
    (fromList h l).2.start = 0 ∧
    (fromList h l).2.end_ = l.length ∧
    (fromList h l).2.bid = h.bufs.length ∧
    visible (fromList h l).1 (fromList h l).2 = l ∧
    intoIter (fromList h l).1 (fromList h l).2 = l := by
  refine ⟨rfl, rfl, rfl, ?_, ?_⟩ <;>
    simp [fromList, visible, intoIter, buf_alloc_snd]

/-- C10 (implicit): after `modify` — and hence after `extend`, which is
`modify(|vec| vec.extend(iter))` — the view is a full window over its backing
buffer: `start = 0` and `end = buffer.length()`, on both branches. -/
theorem modify_full_window_post (h : Heap α) (s : CowSlice) (f : List α → List α)
    (xs : List α) :
    (modifyCow h s f).2.start = 0 ∧
    (modifyCow h s f).2.end_ = ((modifyCow h s f).1.buf (modifyCow h s f).2.bid).length ∧
    (extendCow h s xs).2.start = 0 ∧
    (extendCow h s xs).2.end_ = ((extendCow h s xs).1.buf (extendCow h s xs).2.bid).length := by
  have key : ∀ g : List α → List α,
      (modifyCow h s g).2.start = 0 ∧
      (modifyCow h s g).2.end_ = ((modifyCow h s g).1.buf (modifyCow h s g).2.bid).length := by
    intro g
    unfold modifyCow
    split
    next hc =>
      have hb := lt_of_isUnique h s.bid hc.1
      rw [buf_setBuf_self h s.bid (g (h.buf s.bid)) hb]
      exact ⟨hc.2.1, rfl⟩
    next hc =>
      simp [buf_alloc_snd]
  exact ⟨(key f).1, (key f).2, (key _).1, (key _).2⟩

/-- C3: `modify(f)` applies `f` in place (same buffer, no allocation) and
resynchronizes `end` to the buffer's new length exactly when the buffer is
unique AND the window spans it (`start == 0 && end == data.len()`); otherwise
it copies exactly the visible region into a fresh buffer, applies `f` there,
and replaces the view wholesale with a full window over the new buffer,
leaving every pre-existing buffer untouched. -/
theorem modify_branch_spec (h : Heap α) (s : CowSlice) (f : List α → List α) :
    (h.isUnique s.bid = true ∧ s.start = 0 ∧ s.end_ = (h.buf s.bid).length →
      (modifyCow h s f).2.bid = s.bid ∧
      (modifyCow h s f).1.buf s.bid = f (h.buf s.bid) ∧
      (modifyCow h s f).2.start = 0 ∧
      (modifyCow h s f).2.end_ = (f (h.buf s.bid)).length ∧
      (modifyCow h s f).1.bufs.length = h.bufs.length) ∧
    (¬(h.isUnique s.bid = true ∧ s.start = 0 ∧ s.end_ = (h.buf s.bid).length) →
      (modifyCow h s f).2.bid = h.bufs.length ∧
      (modifyCow h s f).1.buf (modifyCow h s f).2.bid = f (visible h s) ∧
      (modifyCow h s f).2.start = 0 ∧
      (modifyCow h s f).2.end_ = (f (visible h s)).length ∧
      ∀ b, b < h.bufs.length → (modifyCow h s f).1.buf b = h.buf b) := by
  constructor
  · intro hc
    have hb := lt_of_isUnique h s.bid hc.1
    unfold modifyCow
    rw [if_pos hc]
    exact ⟨rfl, buf_setBuf_self _ _ _ hb, hc.2.1, rfl, length_setBuf _ _ _⟩
  · intro hc
    unfold modifyCow
    rw [if_neg hc]
    refine ⟨by simp [Heap.alloc, length_rcDecr], buf_alloc_snd _ _, rfl, rfl, ?_⟩
    intro b hbl
    rw [buf_alloc_lt _ _ _ (by rw [length_rcDecr]; exact hbl), buf_rcDecr]

/-- Concrete transformation used by witnesses: `|vec| vec.push(4)`. -/
def pushFour (l : List Nat) : List Nat := l ++ [4]

/-- Witness for C3 at the in-place branch: unique full view of `[1,2,3]`,
pushing 4 mutates the same buffer in place. -/
theorem modify_branch_spec_witness :
    (modifyCow (⟨[([1, 2, 3], 1)]⟩ : Heap Nat) ⟨0, 0, 3⟩ pushFour).1.buf 0 =
      pushFour ((⟨[([1, 2, 3], 1)]⟩ : Heap Nat).buf 0) :=
  ((modify_branch_spec (⟨[([1, 2, 3], 1)]⟩ : Heap Nat) ⟨0, 0, 3⟩ pushFour).1
    (by decide)).2.1

/-- C6 counterexample: `truncate` can GROW the window.  Build `[1,2,3]`
(full window, `end = 3`), `truncate(1)` (`end = 1`), then `truncate(3)`:
the assertion `start + len <= data.len()` passes and the call returns
normally with the new `end = 3` strictly greater than the previous `end = 1`,
refuting "truncation only ever shrinks the window". -/
theorem truncate_can_grow_cex :
    fromList (⟨[]⟩ : Heap Nat) [1, 2, 3] = (⟨[([1, 2, 3], 1)]⟩, ⟨0, 0, 3⟩) ∧
    truncate (⟨[([1, 2, 3], 1)]⟩ : Heap Nat) ⟨0, 0, 3⟩ 1 = some ⟨0, 0, 1⟩ ∧
    truncate (⟨[([1, 2, 3], 1)]⟩ : Heap Nat) ⟨0, 0, 1⟩ 3 = some ⟨0, 0, 3⟩ ∧
    (⟨0, 0, 1⟩ : CowSlice).end_ < (⟨0, 0, 3⟩ : CowSlice).end_ := by decide

/-- C6 amended: `truncate(len)` sets `end := start + len` in place so the
visible length becomes `len`, and it is a fatal assertion exactly when
`start + len` exceeds the underlying buffer's length.  (The clause "the new
`end` is never greater than the previous `end`" is dropped: the assertion
only bounds `end` by the buffer length, so `truncate` may also grow the
window — see the counterexample.) -/
theorem truncate_spec_amended (h : Heap α) (s : CowSlice) (len : Nat) :
    (truncate h s len = none ↔ (h.buf s.bid).length < s.start + len) ∧
    (s.start + len ≤ (h.buf s.bid).length →
      truncate h s len = some ⟨s.bid, s.start, s.start + len⟩ ∧
      (visible h ⟨s.bid, s.start, s.start + len⟩).length = len) := by
  constructor
  · unfold truncate
    split
    next hle => simp; omega
    next hgt => simp; omega
  · intro hle
    refine ⟨by unfold truncate; rw [if_pos hle], ?_⟩
    simp only [visible, List.length_take, List.length_drop]
    omega

/-- Witness for C6: truncating the full view of `[1,2,3]` to length 2. -/
theorem truncate_spec_amended_witness :
    truncate (⟨[([1, 2, 3], 1)]⟩ : Heap Nat) ⟨0, 0, 3⟩ 2 = some ⟨0, 0, 2⟩ :=
  ((truncate_spec_amended (⟨[([1, 2, 3], 1)]⟩ : Heap Nat) ⟨0, 0, 3⟩ 2).2 (by decide)).1

/-- C4: `slice(range)` resolves the bounds relative to the current window by
adding `start`; when `new_start <= new_end <= end` it returns a view over the
SAME buffer (share count incremented, no copying) whose visible sequence is
exactly the corresponding sub-range of the original visible sequence; a
violated precondition is a fatal assertion (`none`), never a clamp. -/
theorem slice_spec (h : Heap α) (s : CowSlice) (sb eb : RBound) :
    (resolveStart s sb ≤ resolveEnd s eb ∧ resolveEnd s eb ≤ s.end_ →
      sliceCow h s sb eb =
        some (h.rcIncr s.bid, ⟨s.bid, resolveStart s sb, resolveEnd s eb⟩) ∧
      visible (h.rcIncr s.bid) ⟨s.bid, resolveStart s sb, resolveEnd s eb⟩ =
        ((visible h s).drop (resolveStart s sb - s.start)).take
          (resolveEnd s eb - resolveStart s sb)) ∧
    (¬(resolveStart s sb ≤ resolveEnd s eb ∧ resolveEnd s eb ≤ s.end_) →
      sliceCow h s sb eb = none) := by
  constructor
  · intro hc
    refine ⟨by unfold sliceCow; rw [if_pos hc], ?_⟩
    have hst := start_le_resolveStart s sb
    unfold visible
    rw [buf_rcIncr]
    simp only [List.drop_take, List.drop_drop, List.take_take]
    rw [show s.start + (resolveStart s sb - s.start) = resolveStart s sb by omega]
    congr 1
    omega
  · intro hc
    unfold sliceCow
    rw [if_neg hc]

/-- Witness for C4: the source test's `slice(1..=2)` on the full view of
`[1,2,3,4]`. -/
theorem slice_spec_witness :
    sliceCow (⟨[([1, 2, 3, 4], 1)]⟩ : Heap Nat) ⟨0, 0, 4⟩ (.included 1) (.included 2) =
      some (⟨[([1, 2, 3, 4], 2)]⟩, ⟨0, 1, 3⟩) :=
  ((slice_spec (⟨[([1, 2, 3, 4], 1)]⟩ : Heap Nat) ⟨0, 0, 4⟩ (.included 1)
    (.included 2)).1 (by decide)).1

/-- C5 counterexample: a view whose buffer has share count 1 but whose window
is a strict sub-window (reachable by `truncate`) — `extend` (via `modify`)
fails the full-window check, takes the copy branch, and ALLOCATES a new
backing buffer: the backing-buffer identity changes (bid 0 → 1) and the heap
grows, refuting "share count 1 implies no allocation" for `modify`/`extend`. -/
theorem unique_modify_allocates_cex :
    Heap.rc (⟨[([1, 2, 3], 1)]⟩ : Heap Nat) 0 = 1 ∧
    truncate (⟨[([1, 2, 3], 1)]⟩ : Heap Nat) ⟨0, 0, 3⟩ 2 = some ⟨0, 0, 2⟩ ∧
    (extendCow (⟨[([1, 2, 3], 1)]⟩ : Heap Nat) ⟨0, 0, 2⟩ [9]).2.bid = 1 ∧
    ((extendCow (⟨[([1, 2, 3], 1)]⟩ : Heap Nat) ⟨0, 0, 2⟩ [9]).1).bufs.length = 2 := by
  decide

/-- C5 amended: with share count 1, an element write through `DerefMut` never
allocates (same buffer id, no new heap entry); `modify`/`extend` avoid
allocation only when additionally the window spans the whole buffer
(`start == 0 && end == data.len()`) — otherwise they copy (counterexample
above). -/
theorem unique_no_alloc_amended (h : Heap α) (s : CowSlice) (i : Nat) (x : α)
    (f : List α → List α) (xs : List α) (hu : h.isUnique s.bid = true) :
    (∀ h' s', writeAt h s i x = some (h', s') →
      s'.bid = s.bid ∧ h'.bufs.length = h.bufs.length) ∧
    (s.start = 0 → s.end_ = (h.buf s.bid).length →
      (modifyCow h s f).2.bid = s.bid ∧
      ((modifyCow h s f).1).bufs.length = h.bufs.length ∧
      (extendCow h s xs).2.bid = s.bid ∧
      ((extendCow h s xs).1).bufs.length = h.bufs.length) := by
  have hprep : derefMutPrep h s = (h, s) := by unfold derefMutPrep; rw [if_pos hu]
  constructor
  · intro h' s' heq
    unfold writeAt at heq
    rw [hprep] at heq
    split at heq
    next =>
      cases heq
      exact ⟨rfl, length_setBuf _ _ _⟩
    next => cases heq
  · intro h0 he
    have key : ∀ g : List α → List α,
        (modifyCow h s g).2.bid = s.bid ∧
        ((modifyCow h s g).1).bufs.length = h.bufs.length := by
      intro g
      unfold modifyCow
      rw [if_pos ⟨hu, h0, he⟩]
      exact ⟨rfl, length_setBuf _ _ _⟩
    exact ⟨(key f).1, (key f).2, (key _).1, (key _).2⟩

/-- Witness for C5 (amended): unique full view of `[1,2]`, extending by `[4]`
keeps the same buffer and allocates nothing. -/
theorem unique_no_alloc_amended_witness :
    ((extendCow (⟨[([1, 2], 1)]⟩ : Heap Nat) ⟨0, 0, 2⟩ [4]).1).bufs.length = 1 :=
  ((unique_no_alloc_amended (⟨[([1, 2], 1)]⟩ : Heap Nat) ⟨0, 0, 2⟩ 0 0 pushFour [4]
    (by decide)).2 (by decide) (by decide)).2.2.2

/-- C1 (Invariant I3, sharing isolation): for two views `v`, `w` of the SAME
backing buffer (so its share count is at least 2 — e.g. `w` was obtained from
`v` by `slice` or `clone`, or vice versa), any mutation through `v` —
`modify`, `extend`, or an element write through `DerefMut` — leaves the
visible sequence of `w` unchanged; by symmetry of the hypotheses the same
holds with the roles swapped. -/
theorem cow_sharing_isolation (h : Heap α) (v w : CowSlice) (f : List α → List α)
    (xs : List α) (i : Nat) (x : α) (hb : w.bid = v.bid) (hrc : 2 ≤ h.rc v.bid) :
    visible (modifyCow h v f).1 w = visible h w ∧
    visible (extendCow h v xs).1 w = visible h w ∧
    (∀ h' v', writeAt h v i x = some (h', v') → visible h' w = visible h w) := by
  have hu : h.isUnique v.bid = false := not_isUnique_of_two_le h v.bid hrc
  have hvlt : v.bid < h.bufs.length := lt_of_rc_ne_zero h v.bid (by omega)
  have hwlt : w.bid < h.bufs.length := hb ▸ hvlt
  have key : ∀ g : List α → List α, visible (modifyCow h v g).1 w = visible h w := by
    intro g
    unfold modifyCow
    rw [if_neg (by simp [hu])]
    apply visible_eq_of_buf_eq
    rw [buf_alloc_lt _ _ _ (by rw [length_rcDecr]; exact hwlt), buf_rcDecr]
  refine ⟨key f, key _, ?_⟩
  intro h' v' heq
  have hprep : derefMutPrep h v =
      (((h.rcDecr v.bid).alloc (visible h v)).1,
        ⟨((h.rcDecr v.bid).alloc (visible h v)).2, 0, (visible h v).length⟩) := by
    unfold derefMutPrep
    rw [if_neg (by simp [hu])]
  unfold writeAt at heq
  rw [hprep] at heq
  dsimp only at heq
  split at heq
  next =>
    cases heq
    have hfresh : ((h.rcDecr v.bid).alloc (visible h v)).2 = h.bufs.length := by
      simp [Heap.alloc, length_rcDecr]
    apply visible_eq_of_buf_eq
    rw [buf_setBuf_of_ne _ _ _ _ (by rw [hfresh]; omega),
      buf_alloc_lt _ _ _ (by rw [length_rcDecr]; exact hwlt), buf_rcDecr]
  next => cases heq

/-- Witness for C1: `[1,2,3]` with share count 2 (a full view `v` and its
sub-slice `w = v.slice(1..)`); pushing 4 through `v` leaves `w`'s visible
sequence `[2,3]` unchanged. -/
theorem cow_sharing_isolation_witness :
    visible (modifyCow (⟨[([1, 2, 3], 2)]⟩ : Heap Nat) ⟨0, 0, 3⟩ pushFour).1 ⟨0, 1, 3⟩ =
      visible (⟨[([1, 2, 3], 2)]⟩ : Heap Nat) ⟨0, 1, 3⟩ :=
  (cow_sharing_isolation (⟨[([1, 2, 3], 2)]⟩ : Heap Nat) ⟨0, 0, 3⟩ ⟨0, 1, 3⟩ pushFour
    [] 0 0 rfl (by decide)).1

/-- C9 (Invariant I1 preservation): every public operation that returns
normally — construction, clone, slice, truncate, modify, extend, and an
element write through `DerefMut` — yields a view satisfying
`start <= end <= buffer.length()` (given, for the operations on an existing
view, that the input view satisfied it). -/
theorem ops_preserve_I1 (h : Heap α) (s : CowSlice) (l : List α)
    (f : List α → List α) (xs : List α) (len i : Nat) (x : α) (sb eb : RBound)
    (hI : I1 h s) :
    I1 (fromList h l).1 (fromList h l).2 ∧
    I1 (clone h s).1 (clone h s).2 ∧
    (∀ h' s', sliceCow h s sb eb = some (h', s') → I1 h' s') ∧
    (∀ s', truncate h s len = some s' → I1 h s') ∧
    I1 (modifyCow h s f).1 (modifyCow h s f).2 ∧
    I1 (extendCow h s xs).1 (extendCow h s xs).2 ∧
    (∀ h' s', writeAt h s i x = some (h', s') → I1 h' s') := by
  obtain ⟨hI1, hI2⟩ := hI
  have hmod : ∀ g : List α → List α, I1 (modifyCow h s g).1 (modifyCow h s g).2 := by
    intro g
    unfold modifyCow
    split
    next hc =>
      have hb := lt_of_isUnique h s.bid hc.1
      refine ⟨by simp [hc.2.1], ?_⟩
      dsimp only
      rw [buf_setBuf_self _ _ _ hb]
    next hc =>
      refine ⟨Nat.zero_le _, ?_⟩
      dsimp only
      rw [buf_alloc_snd]
  refine ⟨⟨Nat.zero_le _, ?_⟩, ⟨hI1, ?_⟩, ?_, ?_, hmod f, hmod _, ?_⟩
  · unfold fromList
    dsimp only
    rw [buf_alloc_snd]
  · unfold clone
    dsimp only
    rw [buf_rcIncr]
    exact hI2
  · intro h' s' heq
    unfold sliceCow at heq
    split at heq
    next hc =>
      cases heq
      exact ⟨hc.1, by rw [buf_rcIncr]; exact le_trans hc.2 hI2⟩
    next => cases heq
  · intro s' heq
    unfold truncate at heq
    split at heq
    next hc =>
      cases heq
      exact ⟨Nat.le_add_right _ _, hc⟩
    next => cases heq
  · intro h' s' heq
    by_cases hu : h.isUnique s.bid = true
    · have hb := lt_of_isUnique h s.bid hu
      have hprep : derefMutPrep h s = (h, s) := by unfold derefMutPrep; rw [if_pos hu]
      unfold writeAt at heq
      rw [hprep] at heq
      dsimp only at heq
      split at heq
      next =>
        cases heq
        refine ⟨hI1, ?_⟩
        rw [buf_setBuf_self _ _ _ hb, List.length_set]
        exact hI2
      next => cases heq
    · have hprep : derefMutPrep h s =
          (((h.rcDecr s.bid).alloc (visible h s)).1,
            ⟨((h.rcDecr s.bid).alloc (visible h s)).2, 0, (visible h s).length⟩) := by
        unfold derefMutPrep
        rw [if_neg hu]
      unfold writeAt at heq
      rw [hprep] at heq
      dsimp only at heq
      split at heq
      next =>
        cases heq
        refine ⟨Nat.zero_le _, ?_⟩
        have hfl : ((h.rcDecr s.bid).alloc (visible h s)).2 <
            (((h.rcDecr s.bid).alloc (visible h s)).1).bufs.length := by
          simp [Heap.alloc, length_rcDecr]
        rw [buf_setBuf_self _ _ _ hfl, List.length_set, buf_alloc_snd]
      next => cases heq

/-- Witness for C9: the full unique view of `[1,2]`; `modify` (push 4)
preserves `start <= end <= buffer.length()`. -/
theorem ops_preserve_I1_witness :
    I1 (modifyCow (⟨[([1, 2], 1)]⟩ : Heap Nat) ⟨0, 0, 2⟩ pushFour).1
      (modifyCow (⟨[([1, 2], 1)]⟩ : Heap Nat) ⟨0, 0, 2⟩ pushFour).2 :=
  (ops_preserve_I1 (⟨[([1, 2], 1)]⟩ : Heap Nat) ⟨0, 0, 2⟩ [5] pushFour [] 0 0 0
    .unbounded .unbounded (by decide)).2.2.2.2.1

/-- C2 (code bug, at the failing input): build `[1,2,3,4]` then `truncate(2)`.
The buffer is unique and the window is `[0, 2)`, so the visible sequence is
`[1,2]` — yet `deref_mut` returns `self.data.make_mut()`, the WHOLE 4-element
buffer, so iteration by mutable reference sees 4 elements and the element
write `slice[3] = 9` succeeds and writes `buffer[3]`, outside the window:
the mutable access path is not window-scoped. -/
theorem derefMut_escapes_window_failing_input :
    fromList (⟨[]⟩ : Heap Nat) [1, 2, 3, 4] = (⟨[([1, 2, 3, 4], 1)]⟩, ⟨0, 0, 4⟩) ∧
    truncate (⟨[([1, 2, 3, 4], 1)]⟩ : Heap Nat) ⟨0, 0, 4⟩ 2 = some ⟨0, 0, 2⟩ ∧
    visible (⟨[([1, 2, 3, 4], 1)]⟩ : Heap Nat) ⟨0, 0, 2⟩ = [1, 2] ∧
    derefMutSlice (⟨[([1, 2, 3, 4], 1)]⟩ : Heap Nat) ⟨0, 0, 2⟩ = [1, 2, 3, 4] ∧
    writeAt (⟨[([1, 2, 3, 4], 1)]⟩ : Heap Nat) ⟨0, 0, 2⟩ 3 9 =
      some (⟨[([1, 2, 3, 9], 1)]⟩, ⟨0, 0, 2⟩) := by decide

/-! ## Lexicographic comparison lemmas for C7 -/

theorem lexCmp_eq_iff (cmp : α → α → Ordering)
    (hceq : ∀ x y, cmp x y = .eq ↔ x = y) :
    ∀ xs ys : List α, lexCmp cmp xs ys = .eq ↔ xs = ys := by
  intro xs
  induction xs with
  | nil =>
    intro ys
    cases ys <;> simp [lexCmp]
  | cons x xs ih =>
    intro ys
    cases ys with
    | nil => simp [lexCmp]
    | cons y ys =>
      simp only [lexCmp]
      cases hcase : cmp x y with
      | lt =>
        simp only [List.cons.injEq]
        constructor
        · intro habs
          cases habs
        · rintro ⟨rfl, -⟩
          rw [(hceq x x).mpr rfl] at hcase
          cases hcase
      | eq =>
        have hxy : x = y := (hceq x y).mp hcase
        simp [ih, hxy]
      | gt =>
        simp only [List.cons.injEq]
        constructor
        · intro habs
          cases habs
        · rintro ⟨rfl, -⟩
          rw [(hceq x x).mpr rfl] at hcase
          cases hcase

theorem lexCmp_lt_iff [LinearOrder α] (cmp : α → α → Ordering)
    (hclt : ∀ x y, cmp x y = .lt ↔ x < y)
    (hceq : ∀ x y, cmp x y = .eq ↔ x = y) :
    ∀ xs ys : List α, lexCmp cmp xs ys = .lt ↔ List.Lex (· < ·) xs ys := by
  intro xs
  induction xs with
  | nil =>
    intro ys
    cases ys with
    | nil =>
      simp only [lexCmp]
      constructor
      · intro habs; cases habs
      · intro habs; cases habs
    | cons y ys =>
      simp only [lexCmp]
      constructor
      · intro _
        exact List.Lex.nil
      · intro _
        trivial
  | cons x xs ih =>
    intro ys
    cases ys with
    | nil =>
      simp only [lexCmp]
      constructor
      · intro habs; cases habs
      · intro habs; cases habs
    | cons y ys =>
      simp only [lexCmp]
      cases hcase : cmp x y with
      | lt =>
        exact ⟨fun _ => List.Lex.rel ((hclt x y).mp hcase), fun _ => rfl⟩
      | eq =>
        obtain rfl : x = y := (hceq x y).mp hcase
        constructor
        · intro hl
          exact List.Lex.cons ((ih ys).mp hl)
        · intro hl
          cases hl with
          | cons htl => exact (ih ys).mpr htl
          | rel hr => exact absurd hr (lt_irrefl x)
      | gt =>
        constructor
        · intro habs; cases habs
        · intro hl
          cases hl with
          | cons htl =>
            rw [(hceq x x).mpr rfl] at hcase
            cases hcase
          | rel hr =>
            rw [(hclt x y).mpr hr] at hcase
            cases hcase

/-- C7: equality, hashing and ordering of `CowSlice` are computed purely from
the visible region `buffer[start..end]`: if two views (over arbitrary — even
different — backing stores and offsets) have element-wise-equal visible
regions, then `PartialEq` returns `true`, every hasher state yields the same
hash, and comparison against any third view is the same; moreover `Ord` is
exactly the mathematical lexicographic order on the visible sequences
(`cmp = .lt` iff `List.Lex (<)`, `cmp = .eq` iff equality). -/
theorem eq_hash_ord_from_visible [BEq α] [LawfulBEq α] [LinearOrder α]
    (cmp : α → α → Ordering)
    (hclt : ∀ x y, cmp x y = .lt ↔ x < y)
    (hceq : ∀ x y, cmp x y = .eq ↔ x = y)
    (wl : Nat → Nat → Nat) (we : Nat → α → Nat)
    (h₁ h₂ : Heap α) (a b : CowSlice) (hv : visible h₁ a = visible h₂ b) :
    eqCow h₁ a h₂ b = true ∧
    (∀ st, hashCow wl we h₁ a st = hashCow wl we h₂ b st) ∧
    (∀ (h₃ : Heap α) (c : CowSlice),
      cmpCow cmp h₁ a h₃ c = cmpCow cmp h₂ b h₃ c ∧
      (cmpCow cmp h₁ a h₃ c = .lt ↔ List.Lex (· < ·) (visible h₁ a) (visible h₃ c)) ∧
      (cmpCow cmp h₁ a h₃ c = .eq ↔ visible h₁ a = visible h₃ c)) := by
  refine ⟨by simp [eqCow, hv], fun st => by simp [hashCow, hv], fun h₃ c => ?_⟩
  exact ⟨by simp [cmpCow, hv], lexCmp_lt_iff cmp hclt hceq _ _,
    lexCmp_eq_iff cmp hceq _ _⟩

/-- A concrete comparator on `Nat` mirroring `usize::cmp`, for the witness. -/
def cmpNat (x y : Nat) : Ordering :=
  if x < y then .lt else if x = y then .eq else .gt

theorem cmpNat_lt_iff (x y : Nat) : cmpNat x y = .lt ↔ x < y := by
  unfold cmpNat
  split
  · simp_all
  · split <;> simp_all
theorem cmpNat_eq_iff (x y : Nat) : cmpNat x y = .eq ↔ x = y := by
  unfold cmpNat
  split
  · constructor
    · intro habs; cases habs
    · omega
  · split <;> simp_all

/-- Witness for C7: `[9,1,2,7]` windowed to `[1,2]` versus a fresh buffer
holding exactly `[1,2]` — different backing stores and offsets, equal visible
contents, equality returns `true`. -/
theorem eq_hash_ord_from_visible_witness :
    eqCow (⟨[([9, 1, 2, 7], 1)]⟩ : Heap Nat) ⟨0, 1, 3⟩
      (⟨[([1, 2], 1)]⟩ : Heap Nat) ⟨0, 0, 2⟩ = true :=
  (eq_hash_ord_from_visible cmpNat cmpNat_lt_iff cmpNat_eq_iff (fun a b => a + b)
    (fun a b => a + b) (⟨[([9, 1, 2, 7], 1)]⟩ : Heap Nat) (⟨[([1, 2], 1)]⟩ : Heap Nat)
    ⟨0, 1, 3⟩ ⟨0, 0, 2⟩ (by decide)).1
